import Mathlib

/-!
Shallow embedding of `src/docaggregate.py` (the inheritance-resolution /
structural-merge engine of Simplify-PaperAI) and proofs about it.

YAML/JSON-like values are modelled by `Val`; Python dicts become ordered
association lists (Python ≥3.7 dicts preserve insertion order, which the
program relies on), keyed by `String` for record bodies (all record keys in
the documentation YAML schema are strings) and by `Val` for the
member-name map inside the named-list merge (member `name` values are used
directly as dict keys by the source).
-/

namespace DocAggregate

/-- A YAML/JSON-like value, as manipulated by `docaggregate.py`. -/
inductive Val : Type where
  | null : Val
  | bool : Bool → Val
  | int : Int → Val
  | str : String → Val
  | list : List Val → Val
  | dict : List (String × Val) → Val
  deriving Repr

mutual

/-- Structural equality of values (Python `==` on the modelled data). -/
def Val.beq : Val → Val → Bool
  | .null, .null => true
  | .bool a, .bool b => a == b
  | .int a, .int b => a == b
  | .str a, .str b => a == b
  | .list a, .list b => beqListV a b
  | .dict a, .dict b => beqDictV a b
  | _, _ => false

def beqListV : List Val → List Val → Bool
  | [], [] => true
  | a :: as, b :: bs => Val.beq a b && beqListV as bs
  | _, _ => false

def beqDictV : List (String × Val) → List (String × Val) → Bool
  | [], [] => true
  | (k, a) :: as, (l, b) :: bs => k == l && Val.beq a b && beqDictV as bs
  | _, _ => false

end

mutual

theorem Val.eq_of_beq : ∀ {a b : Val}, Val.beq a b = true → a = b
  | .null, .null, _ => rfl
  | .bool _, .bool _, h => by
      simp only [Val.beq, beq_iff_eq] at h; exact congrArg Val.bool h
  | .int _, .int _, h => by
      simp only [Val.beq, beq_iff_eq] at h; exact congrArg Val.int h
  | .str _, .str _, h => by
      simp only [Val.beq, beq_iff_eq] at h; exact congrArg Val.str h
  | .list a, .list b, h => by
      simp only [Val.beq] at h; exact congrArg Val.list (eqList_of_beq h)
  | .dict a, .dict b, h => by
      simp only [Val.beq] at h; exact congrArg Val.dict (eqDict_of_beq h)

theorem eqList_of_beq : ∀ {a b : List Val}, beqListV a b = true → a = b
  | [], [], _ => rfl
  | a :: as, b :: bs, h => by
      simp only [beqListV, Bool.and_eq_true] at h
      rw [Val.eq_of_beq h.1, eqList_of_beq h.2]

theorem eqDict_of_beq :
    ∀ {a b : List (String × Val)}, beqDictV a b = true → a = b
  | [], [], _ => rfl
  | (k, a) :: as, (l, b) :: bs, h => by
      simp only [beqDictV, Bool.and_eq_true, beq_iff_eq] at h
      rw [h.1.1, Val.eq_of_beq h.1.2, eqDict_of_beq h.2]

end

mutual

theorem Val.beq_refl : ∀ (a : Val), Val.beq a a = true
  | .null => rfl
  | .bool _ => by simp [Val.beq]
  | .int _ => by simp [Val.beq]
  | .str _ => by simp [Val.beq]
  | .list a => by simp only [Val.beq]; exact beqListV_refl a
  | .dict a => by simp only [Val.beq]; exact beqDictV_refl a

theorem beqListV_refl : ∀ (a : List Val), beqListV a a = true
  | [] => rfl
  | a :: as => by
      simp only [beqListV, Bool.and_eq_true]
      exact ⟨Val.beq_refl a, beqListV_refl as⟩

theorem beqDictV_refl : ∀ (a : List (String × Val)), beqDictV a a = true
  | [] => rfl
  | (k, a) :: as => by
      simp only [beqDictV, Bool.and_eq_true, beq_self_eq_true]
      exact ⟨⟨trivial, Val.beq_refl a⟩, beqDictV_refl as⟩

end

theorem Val.beq_iff_eq {a b : Val} : Val.beq a b = true ↔ a = b :=
  ⟨Val.eq_of_beq, fun h => h ▸ Val.beq_refl a⟩

instance : DecidableEq Val := fun a b =>
  decidable_of_iff (Val.beq a b = true) Val.beq_iff_eq

/-- Python truthiness (`bool(v)`) for the modelled values. -/
def truthy : Val → Bool
  | .null => false
  | .bool b => b
  | .int n => n != 0
  | .str s => s ≠ ""
  | .list l => !l.isEmpty
  | .dict d => !d.isEmpty

/-- `d[k]` / `d.get(k)` on a Python string-keyed dict (record bodies, the
by-name index, the resolution cache) modelled as an ordered assoc list
(first match; a genuine Python dict has unique keys). -/
def lookupKey {α : Type} : List (String × α) → String → Option α
  | [], _ => none
  | (k', v) :: rest, k => if k' = k then some v else lookupKey rest k

/-- `k in d` on a Python dict. -/
def containsKey {α : Type} (d : List (String × α)) (k : String) : Bool :=
  (lookupKey d k).isSome

/-- `d[k] = v` on a Python dict: an existing key keeps its position and gets
the new value; a fresh key is appended at the end. -/
def setKey {α : Type} : List (String × α) → String → α → List (String × α)
  | [], k, v => [(k, v)]
  | (k', v') :: rest, k, v =>
    if k' = k then (k, v) :: rest else (k', v') :: setKey rest k v

/-- `del d[k]` on a Python dict (removes the key; Python raises if absent,
but the source only deletes after an `in` check, so absence never occurs). -/
def delKey {α : Type} : List (String × α) → String → List (String × α)
  | [], _ => []
  | (k', v') :: rest, k =>
    if k' = k then rest else (k', v') :: delKey rest k

/-- The fixed named-member-group key set `MERGE_LIST_KEYS` of the source. -/
def MERGE_LIST_KEYS : List String :=
  ["properties", "methods", "events", "callbacks", "members", "fields",
   "items", "parameters"]

/-- Lookup in the member-name map `named_items` (keys are the member `name`
values, compared by Python `==`, i.e. structural equality). -/
def alookup : List (Val × Val) → Val → Option Val
  | [], _ => none
  | (k', v) :: rest, k => if k' = k then some v else alookup rest k

/-- `named_items[n] = v`: existing key keeps its position, fresh key is
appended (Python dict insertion-order semantics). -/
def aset : List (Val × Val) → Val → Val → List (Val × Val)
  | [], k, v => [(k, v)]
  | (k', v') :: rest, k, v =>
    if k' = k then (k, v) :: rest else (k', v') :: aset rest k v

/-- The member `name` key of a named-list item: present exactly when the
item is a dict containing a "name" key (`isinstance(it, dict) and "name" in it`). -/
def nameOf : Val → Option Val
  | .dict d => lookupKey d "name"
  | _ => none

/-- Constructor rank, used to totalise comparison of keys of distinct types
(where CPython's `sorted` would raise `TypeError`). -/
def valRank : Val → Nat
  | .null => 0
  | .bool _ => 1
  | .int _ => 2
  | .str _ => 3
  | .list _ => 4
  | .dict _ => 5

/-- Order modelling Python's `sorted(named_items.keys())`.  Member names in
the documentation data are strings, where this coincides with Python's
string ordering; mixed-type or non-scalar keys (on which CPython raises)
are totalised by constructor rank. -/
def valLE (a b : Val) : Bool :=
  match a, b with
  | .str x, .str y => decide (x ≤ y)
  | .int x, .int y => decide (x ≤ y)
  | .bool x, .bool y => decide (x ≤ y)
  | a, b => decide (valRank a ≤ valRank b)

/-- `valLE` as a relation, for use with the sorting machinery. -/
def valLEr (a b : Val) : Prop := valLE a b = true

instance : DecidableRel valLEr := fun a b =>
  inferInstanceAs (Decidable (valLE a b = true))

/-- The keys of `child` that are absent from `base` (the `key not in result`
branch of the merge loop); they are appended after the base keys, in child
order, exactly as Python's in-place dict update does. -/
def childOnly (bd cd : List (String × Val)) : List (String × Val) :=
  cd.filter (fun kv => !(containsKey bd kv.1))

/-- The base pass of the named-list merge: distribute base items into the
positional `merged` accumulator (unnamed items) and the `named_items`
insertion-ordered map (named items, later occurrence overwriting). -/
def basePassAux (unnamed : List Val) (named : List (Val × Val)) :
    List Val → List Val × List (Val × Val)
  | [] => (unnamed, named)
  | it :: rest =>
    match nameOf it with
    | some n => basePassAux unnamed (aset named n it) rest
    | none => basePassAux (unnamed ++ [it]) named rest

theorem sizeOf_lt_of_lookupKey {α : Type} [SizeOf α] :
    ∀ {d : List (String × α)} {k : String} {v : α},
      lookupKey d k = some v → sizeOf v < sizeOf d := by
  intro d
  induction d with
  | nil => intro k v h; simp [lookupKey] at h
  | cons kv rest ih =>
    intro k v h
    obtain ⟨k', v'⟩ := kv
    simp only [lookupKey] at h
    split at h
    · cases h
      simp only [List.cons.sizeOf_spec, Prod.mk.sizeOf_spec]
      omega
    · have := ih h
      simp only [List.cons.sizeOf_spec]
      omega

mutual

/-- `deep_merge(base, child)` from the source.

Unless both operands are dicts, the child wins outright (deep copies are
identities on pure values).  For two dicts, Python copies `base` and then
iterates `child`'s keys, updating existing keys in place (they keep their
base position) and appending fresh keys; on a dict (whose keys are unique)
this yields exactly: each base entry, merged with the child value for that
key when present, followed by the child-only entries in child order.  The
model uses that form directly; `mergeVal` is the per-key branch work of
the loop body. -/
def deep_merge (base child : Val) : Val :=
  match base, child with
  | .dict bd, .dict cd => .dict (mergeBase bd cd ++ childOnly bd cd)
  | _, c => c
termination_by (sizeOf child, 0, 0)

/-- The pass over the base dict's entries: a key also present in the child
dict is merged via `mergeVal`, a base-only key is kept as-is. -/
def mergeBase (bd cd : List (String × Val)) : List (String × Val) :=
  match bd with
  | [] => []
  | (k, bv) :: rest =>
    (k, match h : lookupKey cd k with
        | some cv => mergeVal k bv cv
        | none => bv) :: mergeBase rest cd
termination_by (sizeOf cd, 3, sizeOf bd)
decreasing_by
  · apply Prod.Lex.left
    exact sizeOf_lt_of_lookupKey h
  · apply Prod.Lex.right
    apply Prod.Lex.right
    simp only [List.cons.sizeOf_spec]
    omega

/-- The branch work of the merge loop for a key present in both dicts:
dict+dict recurses, list+list dispatches on the key (named-member-group
merge, or wholesale child override for `tags` and everything else), any
other combination lets the child win. -/
def mergeVal (k : String) (bv cv : Val) : Val :=
  match bv, cv with
  | .dict bd, .dict cd => deep_merge (.dict bd) (.dict cd)
  | .list bl, .list cl =>
    if k ∈ MERGE_LIST_KEYS then .list (mergeNamedLists bl cl) else cv
  | _, _ => cv
termination_by (sizeOf cv, 2, 0)
decreasing_by
  · apply Prod.Lex.right
    exact Prod.Lex.left _ _ (by omega)
  · apply Prod.Lex.left
    simp only [Val.list.sizeOf_spec]
    omega

/-- The named-member-group list merge: base items feed the positional
accumulator / name map, child items override (by a recursive `deep_merge`
of the two same-named members) or extend the map, and finally the named
members are appended after the unnamed ones, sorted by name
(`for n in sorted(named_items.keys()): merged.append(named_items[n])`). -/
def mergeNamedLists (bl cl : List Val) : List Val :=
  let p1 := basePassAux [] [] bl
  let p2 := mergeChildPass p1.1 p1.2 cl
  p2.1 ++ (List.insertionSort valLEr (p2.2.map Prod.fst)).filterMap (alookup p2.2)
termination_by (sizeOf cl, 1, 0)
decreasing_by
  apply Prod.Lex.right
  exact Prod.Lex.left _ _ (by omega)

/-- The child pass of the named-list merge: a named child item merges into
the same-named entry of `named_items` when present (base version first,
child second), or inserts; unnamed child items are appended positionally. -/
def mergeChildPass (unnamed : List Val) (named : List (Val × Val)) :
    (cl : List Val) → List Val × List (Val × Val)
  | [] => (unnamed, named)
  | it :: rest =>
    match nameOf it with
    | some n =>
      match alookup named n with
      | some prev => mergeChildPass unnamed (aset named n (deep_merge prev it)) rest
      | none => mergeChildPass unnamed (aset named n it) rest
    | none => mergeChildPass (unnamed ++ [it]) named rest
termination_by cl => (sizeOf cl, 0, 0)
decreasing_by
  · apply Prod.Lex.left
    simp only [List.cons.sizeOf_spec]
    omega
  · apply Prod.Lex.left
    simp only [List.cons.sizeOf_spec]
    omega
  · apply Prod.Lex.left
    simp only [List.cons.sizeOf_spec]
    omega
  · apply Prod.Lex.left
    simp only [List.cons.sizeOf_spec]
    omega

end

/-! ## The inheritance resolver (`get_base_names`, `build_merged_for_entry`) -/

/-- The fixed list of base-reference keys checked by `get_base_names`. -/
def BASE_KEYS : List String :=
  ["inherits", "extends", "superclass", "superclasses", "bases"]

/-- Contribution of one base-reference key to `get_base_names`: a string
value contributes one name, a sequence contributes its string elements
(non-string elements skipped), any other present value nothing. -/
def baseNamesAt (obj : List (String × Val)) (k : String) : List String :=
  match lookupKey obj k with
  | some (.str s) => [s]
  | some (.list l) =>
    l.filterMap (fun v => match v with | .str s => some s | _ => none)
  | some _ => []
  | none => []

/-- The accumulator loop of `get_base_names` over the fixed key list
(note: the Python loop has no break, so it visits every key). -/
def getBaseNamesLoop (obj : List (String × Val)) :
    List String → List String → List String
  | names, [] => names
  | names, k :: rest => getBaseNamesLoop obj (names ++ baseNamesAt obj k) rest

/-- `get_base_names(obj)` from the source.  A non-dict argument is modelled
as contributing nothing (the function is annotated `obj: dict` and only
receives record bodies; on e.g. a string body Python's `in` would test
substrings and then crash on indexing). -/
def get_base_names (obj : Val) : List String :=
  match obj with
  | .dict d => getBaseNamesLoop d [] BASE_KEYS
  | _ => []

/-- A loaded record entry, as produced by `load_engine_objects`.  The
`kind` and `path` fields of the Python entry dict are never read by the
resolver and are omitted; `name` is the by-name index key
(`data.get("name") or yaml_path.stem`, derived at load time). -/
structure Entry where
  name : String
  data : Val
  deriving Repr

/-- `entry["data"] or {}`: a falsy body (None, empty dict, ...) is
replaced by the empty dict. -/
def orEmptyDict (v : Val) : Val := if truthy v then v else .dict []

/-- `v.get(k)` on a dict value.  The resolver applies `.get` only to
values that are dicts in any non-crashing Python run (a non-dict would
raise `AttributeError`); the model returns nothing for those. -/
def getDict (v : Val) (k : String) : Option Val :=
  match v with
  | .dict d => lookupKey d k
  | _ => none

/-- `v[k] = x` on a dict value (a non-dict target raises `TypeError` in
Python; the model leaves it unchanged). -/
def setDict (v : Val) (k : String) (x : Val) : Val :=
  match v with
  | .dict d => .dict (setKey d k x)
  | _ => v

/-- `del v[k]` on a dict value. -/
def delDict (v : Val) (k : String) : Val :=
  match v with
  | .dict d => .dict (delKey d k)
  | _ => v

/-- `k in v` on a dict value. -/
def containsDict (v : Val) (k : String) : Bool := (getDict v k).isSome

/-- `base_merged.get("_ancestors", [])` followed by the
`isinstance(base_ancestors, list)` guard: the list's elements when the
field holds a list, nothing otherwise. -/
def ancestorsOf (bm : Val) : List Val :=
  match getDict bm "_ancestors" with
  | some (.list l) => l
  | _ => []

/-- The `seen`-set / `deduped`-list loop de-duplicating the ancestors
accumulator, preserving first-seen order (set membership is Python `==`,
i.e. structural equality). -/
def dedupLoop (seen deduped : List Val) : List Val → List Val
  | [] => deduped
  | a :: rest =>
    if a ∈ seen then dedupLoop seen deduped rest
    else dedupLoop (seen ++ [a]) (deduped ++ [a]) rest

/-- Order-preserving de-duplication of the ancestors accumulator. -/
def dedupVals (l : List Val) : List Val := dedupLoop [] [] l

/-- The running state of one `build_merged_for_entry` activation: the
merge accumulator, the ancestors accumulator, the shared cache, and an
instrumentation counter of `deep_merge` invocations. -/
structure RunState where
  merged : Val
  ancestors : List Val
  cache : List (String × Val)
  merges : Nat
  deriving Repr

mutual

/-- `build_merged_for_entry(entry, name_index, cache)` — the second,
EFFECTIVE definition of the source (lines 311-358).  An earlier definition
(lines 174-252) carrying additional own-only special-casing for `name`,
`inherits`, `tags` and `deprecation_message` is shadowed by this one and
never runs.

`fuel` bounds the recursion depth, modelling Python's call stack: a `none`
result at every fuel means the recursion never bottoms out (Python dies
with RecursionError).  The cache is written only AFTER all bases have been
recursively resolved, exactly as in the source — there is no in-progress
marking.  The returned `Nat` counts `deep_merge` invocations performed by
this call (call-count instrumentation of the merge primitive). -/
def buildMerged (fuel : Nat) (entry : Entry) (index : List (String × Entry))
    (cache : List (String × Val)) : Option (Val × List (String × Val) × Nat) :=
  match fuel with
  | 0 => none
  | fuel + 1 =>
    match lookupKey cache entry.name with
    | some v => some (v, cache, 0)
    | none =>
      let data := orEmptyDict entry.data
      match resolveBases fuel index (get_base_names data) ⟨data, [], cache, 0⟩ with
      | none => none
      | some st =>
        let m1 := setDict st.merged "_ancestors" (.list (dedupVals st.ancestors))
        let m2 :=
          if containsDict data "descendants" then
            setDict m1 "descendants" ((getDict data "descendants").getD .null)
          else if containsDict m1 "descendants" then
            delDict m1 "descendants"
          else m1
        some (m2, setKey st.cache entry.name m2, st.merges)
termination_by (fuel, 0, 0)

/-- The base-name loop of the resolver: a base name with no entry in the
by-name index is skipped silently (`if not base_entry: continue`); a
resolved base is recursively resolved through the shared cache and merged
base-first into the accumulator, and the running ancestors are extended
with the base name followed by the base's own ancestor chain. -/
def resolveBases (fuel : Nat) (index : List (String × Entry)) :
    (bl : List String) → RunState → Option RunState
  | [], st => some st
  | b :: rest, st =>
    match lookupKey index b with
    | none => resolveBases fuel index rest st
    | some be =>
      match buildMerged fuel be index st.cache with
      | none => none
      | some (bm, cache', cnt') =>
        resolveBases fuel index rest
          ⟨deep_merge bm st.merged,
           st.ancestors ++ [Val.str b] ++ ancestorsOf bm,
           cache', st.merges + cnt' + 1⟩
termination_by bl _ => (fuel, 1, bl.length)

end

/-! ## The navigation walker (`normalize_rel_path`, `iter_reference_objects`) -/

/-- Split a character sequence on '/' (the segment structure `pathlib`
parses; the accumulator holds the current segment reversed). -/
def splitSlashAux (cur : List Char) : List Char → List (List Char)
  | [] => [cur.reverse]
  | c :: rest =>
    if c = '/' then cur.reverse :: splitSlashAux [] rest
    else splitSlashAux (c :: cur) rest

/-- Segments of a path as `pathlib` normalises them: split on '/',
dropping empty segments and single-dot segments. -/
def pathSegs (p : List Char) : List (List Char) :=
  (splitSlashAux [] p).filter (fun s => !s.isEmpty && s != ['.'])

/-- Join segments with '/'. -/
def joinSlash : List (List Char) → List Char
  | [] => []
  | [s] => s
  | s :: rest => s ++ '/' :: joinSlash rest

/-- `str(Path(p).as_posix())`: "." for a path with no remaining segments,
otherwise the segments joined by "/", keeping a leading "/" for absolute
paths (the PurePosixPath double-slash root quirk is not modelled; no path
in this repository's data is absolute). -/
def posixChars (p : List Char) : List Char :=
  let segs := pathSegs p
  if segs.isEmpty then (if p.head? = some '/' then ['/'] else ['.'])
  else (if p.head? = some '/' then ['/'] else []) ++ joinSlash segs

/-- `normalize_rel_path(p)` from the source:
`str(Path(p).as_posix()).lstrip("./")` — normalise, then strip every
leading '.' or '/' character. -/
def normalize_rel_path (p : String) : String :=
  String.mk ((posixChars p.toList).dropWhile (fun c => c == '.' || c == '/'))

/-- First truthy value among the given lookups.  This models the Python
`a or b or ...` chain combined with the walker's later `if value:`
inclusion test: an entry is included exactly when some candidate is
truthy, and then the first truthy value wins. -/
def firstTruthy : List (Option Val) → Option Val
  | [] => none
  | o :: rest =>
    match o with
    | some v => if truthy v then some v else firstTruthy rest
    | none => firstTruthy rest

/-- The breadcrumb entry a dict node contributes: `id` (or `key`),
`title` (or `label` or `name`), `type`, each included only when truthy,
in that insertion order. -/
def nodeMeta (d : List (String × Val)) : List (String × Val) :=
  let nid := firstTruthy [lookupKey d "id", lookupKey d "key"]
  let ntitle :=
    firstTruthy [lookupKey d "title", lookupKey d "label", lookupKey d "name"]
  let ntype := firstTruthy [lookupKey d "type"]
  (match nid with | some v => [("id", v)] | none => []) ++
  (match ntitle with | some v => [("title", v)] | none => []) ++
  (match ntype with | some v => [("type", v)] | none => [])

/-- A yielded navigation reference: normalized path, breadcrumb trail and
the referencing node (`copy.deepcopy(node)` is an identity on pure
values). -/
structure Ref where
  path : String
  breadcrumbs : List Val
  node : Val
  deriving Repr

/-- The breadcrumb trail passed down from a dict node: extended by the
node's own meta entry exactly when that entry is non-empty (`if meta:`). -/
def pushCrumbs (bc : List Val) (d : List (String × Val)) : List Val :=
  if (nodeMeta d).isEmpty then bc else bc ++ [Val.dict (nodeMeta d)]

/-- `isinstance(value, (dict, list))`: the walker recurses only into dict
and list values. -/
def Val.isMapOrSeq : Val → Bool
  | .dict _ => true
  | .list _ => true
  | _ => false

mutual

/-- `iter_reference_objects(node, breadcrumbs)`: depth-first pre-order
walk yielding a reference for every dict carrying a string "path" value —
the node's own reference is yielded before anything found inside its
values — and recursing into dict values and list elements with the
extended breadcrumb trail. -/
def iterRef (node : Val) (bc : List Val) : List Ref :=
  match node with
  | .dict d =>
    let cur := pushCrumbs bc d
    (match lookupKey d "path" with
     | some (.str p) => [⟨normalize_rel_path p, cur, .dict d⟩]
     | _ => []) ++ iterRefVals d cur
  | .list l => iterRefItems l bc
  | _ => []
termination_by sizeOf node

/-- The `for _, value in node.items()` recursion: only dict and list
values are recursed into (scalars terminate the walk). -/
def iterRefVals (d : List (String × Val)) (bc : List Val) : List Ref :=
  match d with
  | [] => []
  | (_, v) :: rest =>
    (if v.isMapOrSeq then iterRef v bc else []) ++ iterRefVals rest bc
termination_by sizeOf d

/-- The `for item in node` recursion over list nodes. -/
def iterRefItems (l : List Val) (bc : List Val) : List Ref :=
  match l with
  | [] => []
  | v :: rest => iterRef v bc ++ iterRefItems rest bc
termination_by sizeOf l

end

/-! ## Specification-level definitions used by the theorem statements -/

/-- The member of a named list carrying the given name (the first such,
which under `UniqueNames` is the only one). -/
def findNamed (l : List Val) (n : Val) : Option Val :=
  l.find? (fun it => decide (nameOf it = some n))

/-- Each member name occurs on at most one item of the list. -/
def UniqueNames (l : List Val) : Prop := (l.filterMap nameOf).Nodup

/-- Every named member of the list has a string name (as all members of
the documentation data do). -/
def StringNamed (l : List Val) : Prop :=
  ∀ it ∈ l, ∀ n, nameOf it = some n → ∃ s, n = Val.str s

/-- One base reference respects the rank function: the referenced entry,
when the index resolves it, ranks strictly below the given rank. -/
def baseOkB (index : List (String × Entry)) (h : String → Nat) (hn : Nat)
    (b : String) : Bool :=
  match lookupKey index b with
  | some e' => decide (h e'.name < hn)
  | none => true

/-- Every base reference of the entry decreases the rank function. -/
def entryOkB (index : List (String × Entry)) (h : String → Nat) (e : Entry) :
    Bool :=
  (get_base_names (orEmptyDict e.data)).all (baseOkB index h (h e.name))

/-- The by-name index is ranked-acyclic: the given rank function decreases
along every resolvable base reference.  A finite base-reference relation
admits such a rank exactly when it is acyclic. -/
def rankedAcyclicB (index : List (String × Entry)) (h : String → Nat) : Bool :=
  index.all (fun ke => entryOkB index h ke.2)

/-- Resolution of the entry returns at no recursion depth whatsoever: the
Python original recurses until the interpreter aborts (RecursionError). -/
def resolutionDiverges (entry : Entry) (index : List (String × Entry)) : Prop :=
  ∀ fuel, buildMerged fuel entry index [] = none

/-- Visits of the navigation walker: `WalkTo root bc target tbc` holds when
the walk starting at `root` with trail `bc` reaches the dict node `target`
carrying trail `tbc` — the trail accumulated append-only by extending, at
every dict node from `root` down to and including `target`, with that
node's breadcrumb entry whenever it is non-empty. -/
inductive WalkTo : Val → List Val → Val → List Val → Prop where
  | self (d : List (String × Val)) (bc : List Val) :
      WalkTo (.dict d) bc (.dict d) (pushCrumbs bc d)
  | intoVal (d : List (String × Val)) (bc : List Val) (k : String)
      (v tgt : Val) (tbc : List Val) :
      (k, v) ∈ d → WalkTo v (pushCrumbs bc d) tgt tbc →
      WalkTo (.dict d) bc tgt tbc
  | intoItem (l : List Val) (bc : List Val) (v tgt : Val) (tbc : List Val) :
      v ∈ l → WalkTo v bc tgt tbc → WalkTo (.list l) bc tgt tbc

instance : IsTotal Val valLEr :=
  ⟨by
    intro a b
    cases a <;> cases b <;>
      simp [valLEr, valLE, valRank] <;>
      exact le_total _ _⟩

instance : IsTrans Val valLEr :=
  ⟨by
    intro a b c hab hbc
    cases a <;> cases b <;> cases c <;>
      simp_all [valLEr, valLE, valRank] <;>
      exact le_trans hab hbc⟩

/-! ## Helper lemmas about the dict primitives -/

theorem lookupKey_setKey_self {α : Type} (d : List (String × α)) (k : String) (v : α) :
    lookupKey (setKey d k v) k = some v := by
  induction d with
  | nil => simp [setKey, lookupKey]
  | cons kv rest ih =>
    obtain ⟨k', v'⟩ := kv
    by_cases h : k' = k
    · simp [setKey, lookupKey, h]
    · simp [setKey, lookupKey, h, ih]

theorem lookupKey_setKey_ne {α : Type} (d : List (String × α)) (k k' : String) (v : α)
    (h : k ≠ k') : lookupKey (setKey d k v) k' = lookupKey d k' := by
  induction d with
  | nil => simp [setKey, lookupKey, h]
  | cons kv rest ih =>
    obtain ⟨k0, v0⟩ := kv
    by_cases h0 : k0 = k
    · subst h0
      simp [setKey, lookupKey, h]
    · simp [setKey, lookupKey, h0, ih]

theorem lookupKey_delKey_ne {α : Type} (d : List (String × α)) (k k' : String)
    (h : k ≠ k') : lookupKey (delKey d k) k' = lookupKey d k' := by
  induction d with
  | nil => simp [delKey, lookupKey]
  | cons kv rest ih =>
    obtain ⟨k0, v0⟩ := kv
    by_cases h0 : k0 = k
    · subst h0
      simp [delKey, lookupKey, h, ih]
    · simp [delKey, lookupKey, h0, ih]

theorem setKey_eq_of_lookup {α : Type} (d : List (String × α)) (k : String) (v : α)
    (h : lookupKey d k = some v) : setKey d k v = d := by
  induction d with
  | nil => simp [lookupKey] at h
  | cons kv rest ih =>
    obtain ⟨k0, v0⟩ := kv
    by_cases h0 : k0 = k
    · subst h0
      simp [lookupKey] at h
      simp [setKey, h]
    · simp [lookupKey, h0] at h
      simp [setKey, h0, ih h]

theorem lookupKey_append {α : Type} (d1 d2 : List (String × α)) (k : String) :
    lookupKey (d1 ++ d2) k =
      match lookupKey d1 k with
      | some v => some v
      | none => lookupKey d2 k := by
  induction d1 with
  | nil => simp [lookupKey]
  | cons kv rest ih =>
    obtain ⟨k0, v0⟩ := kv
    by_cases h0 : k0 = k
    · simp [lookupKey, h0]
    · simp [lookupKey, h0, ih]

theorem lookupKey_mem {α : Type} :
    ∀ {d : List (String × α)} {k : String} {v : α},
      lookupKey d k = some v → (k, v) ∈ d := by
  intro d
  induction d with
  | nil => intro k v h; simp [lookupKey] at h
  | cons kv rest ih =>
    intro k v h
    obtain ⟨k0, v0⟩ := kv
    by_cases h0 : k0 = k
    · subst h0
      simp [lookupKey] at h
      simp [h]
    · simp [lookupKey, h0] at h
      exact List.mem_cons_of_mem _ (ih h)

theorem alookup_aset_self (m : List (Val × Val)) (k : Val) (v : Val) :
    alookup (aset m k v) k = some v := by
  induction m with
  | nil => simp [aset, alookup]
  | cons kv rest ih =>
    obtain ⟨k', v'⟩ := kv
    by_cases h : k' = k
    · simp [aset, alookup, h]
    · simp [aset, alookup, h, ih]

theorem alookup_aset_ne (m : List (Val × Val)) (k k' : Val) (v : Val)
    (h : k ≠ k') : alookup (aset m k v) k' = alookup m k' := by
  induction m with
  | nil => simp [aset, alookup, h]
  | cons kv rest ih =>
    obtain ⟨k0, v0⟩ := kv
    by_cases h0 : k0 = k
    · subst h0
      simp [aset, alookup, h]
    · simp [aset, alookup, h0, ih]

theorem alookup_mem :
    ∀ {m : List (Val × Val)} {k v : Val}, alookup m k = some v → (k, v) ∈ m := by
  intro m
  induction m with
  | nil => intro k v h; simp [alookup] at h
  | cons kv rest ih =>
    intro k v h
    obtain ⟨k0, v0⟩ := kv
    by_cases h0 : k0 = k
    · subst h0
      simp [alookup] at h
      simp [h]
    · simp [alookup, h0] at h
      exact List.mem_cons_of_mem _ (ih h)

theorem alookup_isSome_of_mem_keys :
    ∀ {m : List (Val × Val)} {k : Val}, k ∈ m.map Prod.fst → (alookup m k).isSome := by
  intro m
  induction m with
  | nil => intro k h; simp at h
  | cons kv rest ih =>
    intro k h
    obtain ⟨k0, v0⟩ := kv
    simp only [List.map_cons, List.mem_cons] at h
    by_cases h0 : k0 = k
    · simp [alookup, h0]
    · rcases h with h | h
      · exact absurd h.symm h0
      · simp only [alookup, h0, if_false]
        exact ih h

theorem aset_keys (m : List (Val × Val)) (k v : Val) :
    (aset m k v).map Prod.fst =
      if k ∈ m.map Prod.fst then m.map Prod.fst else m.map Prod.fst ++ [k] := by
  induction m with
  | nil => simp [aset]
  | cons kv rest ih =>
    obtain ⟨k0, v0⟩ := kv
    by_cases h0 : k0 = k
    · subst h0
      simp [aset]
    · by_cases hk : k ∈ rest.map Prod.fst
      · simp [aset, h0, ih, hk, Ne.symm h0]
      · simp [aset, h0, ih, hk, Ne.symm h0]

theorem aset_keys_nodup (m : List (Val × Val)) (k v : Val)
    (h : (m.map Prod.fst).Nodup) : ((aset m k v).map Prod.fst).Nodup := by
  rw [aset_keys]
  by_cases hk : k ∈ m.map Prod.fst
  · simpa [hk] using h
  · simp only [hk, if_false]
    simpa [List.nodup_append, hk] using h

/-! ## Helper lemmas about the merge engine -/

theorem lookupKey_mergeBase (bd cd : List (String × Val)) (k : String) :
    lookupKey (mergeBase bd cd) k =
      match lookupKey bd k with
      | some bv =>
        some (match lookupKey cd k with
              | some cv => mergeVal k bv cv
              | none => bv)
      | none => none := by
  induction bd with
  | nil => simp [mergeBase, lookupKey]
  | cons kv rest ih =>
    obtain ⟨k0, bv0⟩ := kv
    rw [mergeBase]
    by_cases h0 : k0 = k
    · subst h0
      simp only [lookupKey, if_pos rfl]
      cases hc : lookupKey cd k0 <;> simp [hc]
    · simp only [lookupKey, h0, if_false, if_neg h0]
      exact ih

theorem lookupKey_childOnly (bd cd : List (String × Val)) (k : String) :
    lookupKey (childOnly bd cd) k =
      if containsKey bd k then none else lookupKey cd k := by
  induction cd with
  | nil => simp [childOnly, lookupKey]
  | cons kv rest ih =>
    obtain ⟨k0, cv0⟩ := kv
    by_cases h0 : k0 = k
    · subst h0
      by_cases hb : containsKey bd k0
      · simpa [childOnly, hb] using ih
      · simp [childOnly, hb, lookupKey]
    · by_cases hb : containsKey bd k0
      · simpa [childOnly, hb, lookupKey, h0] using ih
      · simpa [childOnly, hb, lookupKey, h0] using ih

/-- The per-key value of a dict-dict deep merge: child-absent keys keep the
base value, base-absent keys take the child value, keys in both merge via
the per-key branch work. -/
theorem getDict_deep_merge_dict (bd cd : List (String × Val)) (k : String) :
    getDict (deep_merge (.dict bd) (.dict cd)) k =
      match lookupKey bd k, lookupKey cd k with
      | some bv, some cv => some (mergeVal k bv cv)
      | some bv, none => some bv
      | none, some cv => some cv
      | none, none => none := by
  cases hb : lookupKey bd k <;> cases hc : lookupKey cd k <;>
    simp [deep_merge, getDict, lookupKey_append, lookupKey_mergeBase,
      lookupKey_childOnly, containsKey, hb, hc]

/-- A string-valued key of the child operand always survives `deep_merge`
unchanged: no branch of the merge can override a scalar child value. -/
theorem getDict_deep_merge_child_str (b : Val) (cd : List (String × Val))
    (k : String) (s : String) (h : lookupKey cd k = some (.str s)) :
    getDict (deep_merge b (.dict cd)) k = some (.str s) := by
  cases b with
  | dict bd =>
    rw [getDict_deep_merge_dict]
    cases hb : lookupKey bd k <;> simp [h]
    next bv =>
      cases bv <;> simp [mergeVal]
  | null => simpa [deep_merge, getDict] using h
  | bool x => simpa [deep_merge, getDict] using h
  | int x => simpa [deep_merge, getDict] using h
  | str x => simpa [deep_merge, getDict] using h
  | list l => simpa [deep_merge, getDict] using h

/-! ## Helper lemmas about the resolver -/

theorem getBaseNamesLoop_eq_join (d : List (String × Val)) :
    ∀ (ks : List String) (names : List String),
      getBaseNamesLoop d names ks = names ++ (ks.map (baseNamesAt d)).flatten := by
  intro ks
  induction ks with
  | nil => intro names; simp [getBaseNamesLoop]
  | cons k rest ih => intro names; simp [getBaseNamesLoop, ih]

/-- After any successful resolution, the result is cached under the
entry's name in the returned cache. -/
theorem buildMerged_cached :
    ∀ {fuel : Nat} {entry : Entry} {index : List (String × Entry)}
      {cache : List (String × Val)} {res : Val} {c' : List (String × Val)} {n : Nat},
      buildMerged fuel entry index cache = some (res, c', n) →
      lookupKey c' entry.name = some res := by
  intro fuel entry index cache res c' n h
  cases fuel with
  | zero => simp [buildMerged] at h
  | succ f =>
    simp only [buildMerged] at h
    split at h
    · next v hv =>
      simp only [Option.some.injEq, Prod.mk.injEq] at h
      obtain ⟨h1, h2, _⟩ := h
      rw [← h2, ← h1]
      exact hv
    · next hv =>
      split at h
      · exact absurd h (by simp)
      · next st hst =>
        simp only [Option.some.injEq, Prod.mk.injEq] at h
        obtain ⟨h1, h2, _⟩ := h
        rw [← h2, ← h1]
        exact lookupKey_setKey_self _ _ _

/-! ## Helper lemmas about the named-member-group list merge -/

theorem findNamed_eq_none :
    ∀ {l : List Val} {n : Val}, n ∉ l.filterMap nameOf → findNamed l n = none := by
  intro l
  induction l with
  | nil => intro n _; rfl
  | cons it rest ih =>
    intro n h
    cases hn : nameOf it with
    | none =>
      simp only [findNamed, List.find?_cons, hn]
      exact ih (by simpa [List.filterMap_cons, hn] using h)
    | some nv =>
      have h2 : ¬(n = nv ∨ n ∈ rest.filterMap nameOf) := by
        simpa [List.filterMap_cons, hn] using h
      push_neg at h2
      simp only [findNamed, List.find?_cons, hn]
      have : (decide (some nv = some n)) = false := by
        simp
        exact fun hh => h2.1 hh.symm
      rw [this]
      exact ih h2.2

theorem mem_aset :
    ∀ {m : List (Val × Val)} {k v : Val} {p : Val × Val},
      p ∈ aset m k v → p = (k, v) ∨ p ∈ m := by
  intro m
  induction m with
  | nil => intro k v p h; simpa [aset] using h
  | cons kv rest ih =>
    intro k v p h
    obtain ⟨k0, v0⟩ := kv
    by_cases h0 : k0 = k
    · simp only [aset, h0, if_pos rfl] at h
      rcases List.mem_cons.mp h with h | h
      · exact Or.inl h
      · exact Or.inr (List.mem_cons_of_mem _ h)
    · simp only [aset, h0, if_false] at h
      rcases List.mem_cons.mp h with h | h
      · exact Or.inr (by simp [h])
      · rcases ih h with h | h
        · exact Or.inl h
        · exact Or.inr (List.mem_cons_of_mem _ h)

/-- Merging a member into a previously collected same-named member keeps
its string name: the child's scalar `name` value wins the member merge. -/
theorem nameOf_deep_merge_str (prev it : Val) (s : String)
    (h : nameOf it = some (.str s)) :
    nameOf (deep_merge prev it) = some (.str s) := by
  cases it with
  | dict di =>
    simp only [nameOf] at h
    cases prev with
    | dict pd =>
      simpa [nameOf, getDict] using getDict_deep_merge_child_str (.dict pd) di "name" s h
    | null => simpa [deep_merge, nameOf] using h
    | bool x => simpa [deep_merge, nameOf] using h
    | int x => simpa [deep_merge, nameOf] using h
    | str x => simpa [deep_merge, nameOf] using h
    | list l => simpa [deep_merge, nameOf] using h
  | null => simp [nameOf] at h
  | bool x => simp [nameOf] at h
  | int x => simp [nameOf] at h
  | str x => simp [nameOf] at h
  | list l => simp [nameOf] at h

theorem uniqueNames_tail {it : Val} {rest : List Val}
    (hu : UniqueNames (it :: rest)) : UniqueNames rest := by
  unfold UniqueNames at hu ⊢
  cases hn : nameOf it <;> simp [List.filterMap_cons, hn] at hu
  · exact hu
  · exact hu.2

theorem basePassAux_fst :
    ∀ (l u : List Val) (n0 : List (Val × Val)),
      (basePassAux u n0 l).1 = u ++ l.filter (fun it => (nameOf it).isNone) := by
  intro l
  induction l with
  | nil => intro u n0; simp [basePassAux]
  | cons it rest ih =>
    intro u n0
    cases hn : nameOf it with
    | none => simp [basePassAux, hn, ih]
    | some nv => simp [basePassAux, hn, ih]

theorem basePassAux_snd_alookup :
    ∀ (l : List Val), UniqueNames l →
      ∀ (u : List Val) (n0 : List (Val × Val)) (m : Val),
        alookup (basePassAux u n0 l).2 m =
          match findNamed l m with
          | some it => some it
          | none => alookup n0 m := by
  intro l
  induction l with
  | nil => intro _ u n0 m; simp [basePassAux, findNamed]
  | cons it rest ih =>
    intro hu u n0 m
    have hu' := uniqueNames_tail hu
    cases hn : nameOf it with
    | none =>
      simp only [basePassAux, hn]
      rw [ih hu']
      have : findNamed (it :: rest) m = findNamed rest m := by
        simp [findNamed, List.find?_cons, hn]
      rw [this]
    | some nv =>
      simp only [basePassAux, hn]
      rw [ih hu']
      by_cases hm : nv = m
      · subst hm
        have hnotin : nv ∉ rest.filterMap nameOf := by
          unfold UniqueNames at hu
          simp only [List.filterMap_cons, hn, List.nodup_cons] at hu
          exact hu.1
        have hfr : findNamed rest nv = none := findNamed_eq_none hnotin
        have hfc : findNamed (it :: rest) nv = some it := by
          simp [findNamed, List.find?_cons, hn]
        rw [hfr, hfc, alookup_aset_self]
      · have hfc : findNamed (it :: rest) m = findNamed rest m := by
          simp only [findNamed, List.find?_cons, hn]
          have : (decide (some nv = some m)) = false := by
            simp
            exact hm
          rw [this]
        rw [hfc, alookup_aset_ne _ _ _ _ hm]

theorem basePassAux_snd_inv :
    ∀ (l u : List Val) (n0 : List (Val × Val)),
      (∀ p ∈ n0, nameOf p.2 = some p.1) →
      ∀ p ∈ (basePassAux u n0 l).2, nameOf p.2 = some p.1 := by
  intro l
  induction l with
  | nil => intro u n0 h; simpa [basePassAux] using h
  | cons it rest ih =>
    intro u n0 h
    cases hn : nameOf it with
    | none => simpa [basePassAux, hn] using ih _ _ h
    | some nv =>
      simp only [basePassAux, hn]
      apply ih
      intro p hp
      rcases mem_aset hp with hp | hp
      · rw [hp]
        exact hn
      · exact h p hp

theorem basePassAux_snd_keys_nodup :
    ∀ (l u : List Val) (n0 : List (Val × Val)),
      (n0.map Prod.fst).Nodup →
      ((basePassAux u n0 l).2.map Prod.fst).Nodup := by
  intro l
  induction l with
  | nil => intro u n0 h; simpa [basePassAux] using h
  | cons it rest ih =>
    intro u n0 h
    cases hn : nameOf it with
    | none => simpa [basePassAux, hn] using ih _ _ h
    | some nv =>
      simp only [basePassAux, hn]
      exact ih _ _ (aset_keys_nodup _ _ _ h)

theorem mergeChildPass_fst :
    ∀ (l u : List Val) (n0 : List (Val × Val)),
      (mergeChildPass u n0 l).1 = u ++ l.filter (fun it => (nameOf it).isNone) := by
  intro l
  induction l with
  | nil => intro u n0; simp [mergeChildPass]
  | cons it rest ih =>
    intro u n0
    cases hn : nameOf it with
    | none => simp [mergeChildPass, hn, ih]
    | some nv =>
      cases ha : alookup n0 nv with
      | some prev => simp [mergeChildPass, hn, ha, ih]
      | none => simp [mergeChildPass, hn, ha, ih]

theorem mergeChildPass_snd_alookup :
    ∀ (l : List Val), UniqueNames l →
      ∀ (u : List Val) (n0 : List (Val × Val)) (m : Val),
        alookup (mergeChildPass u n0 l).2 m =
          match findNamed l m with
          | some it =>
            match alookup n0 m with
            | some prev => some (deep_merge prev it)
            | none => some it
          | none => alookup n0 m := by
  intro l
  induction l with
  | nil => intro _ u n0 m; simp [mergeChildPass, findNamed]
  | cons it rest ih =>
    intro hu u n0 m
    have hu' := uniqueNames_tail hu
    cases hn : nameOf it with
    | none =>
      have hfc : findNamed (it :: rest) m = findNamed rest m := by
        simp [findNamed, List.find?_cons, hn]
      simp only [mergeChildPass, hn]
      rw [ih hu', hfc]
    | some nv =>
      by_cases hm : nv = m
      · subst hm
        have hnotin : nv ∉ rest.filterMap nameOf := by
          unfold UniqueNames at hu
          simp only [List.filterMap_cons, hn, List.nodup_cons] at hu
          exact hu.1
        have hfr : findNamed rest nv = none := findNamed_eq_none hnotin
        have hfc : findNamed (it :: rest) nv = some it := by
          simp [findNamed, List.find?_cons, hn]
        rw [hfc]
        cases ha : alookup n0 nv with
        | some prev =>
          simp only [mergeChildPass, hn, ha]
          rw [ih hu', hfr, alookup_aset_self]
        | none =>
          simp only [mergeChildPass, hn, ha]
          rw [ih hu', hfr, alookup_aset_self]
      · have hfc : findNamed (it :: rest) m = findNamed rest m := by
          simp only [findNamed, List.find?_cons, hn]
          have : (decide (some nv = some m)) = false := by
            simp
            exact hm
          rw [this]
        rw [hfc]
        cases ha : alookup n0 nv with
        | some prev =>
          simp only [mergeChildPass, hn, ha]
          rw [ih hu', alookup_aset_ne _ _ _ _ hm]
        | none =>
          simp only [mergeChildPass, hn, ha]
          rw [ih hu', alookup_aset_ne _ _ _ _ hm]

theorem mergeChildPass_snd_inv :
    ∀ (l u : List Val) (n0 : List (Val × Val)),
      StringNamed l →
      (∀ p ∈ n0, nameOf p.2 = some p.1) →
      ∀ p ∈ (mergeChildPass u n0 l).2, nameOf p.2 = some p.1 := by
  intro l
  induction l with
  | nil => intro u n0 _ h; simpa [mergeChildPass] using h
  | cons it rest ih =>
    intro u n0 hs h
    have hs' : StringNamed rest := fun x hx => hs x (List.mem_cons_of_mem _ hx)
    cases hn : nameOf it with
    | none => simpa [mergeChildPass, hn] using ih _ _ hs' h
    | some nv =>
      obtain ⟨s, hsv⟩ := hs it (List.mem_cons_self _ _) nv hn
      subst hsv
      cases ha : alookup n0 (.str s) with
      | some prev =>
        simp only [mergeChildPass, hn, ha]
        apply ih _ _ hs'
        intro p hp
        rcases mem_aset hp with hp | hp
        · rw [hp]
          exact nameOf_deep_merge_str prev it s hn
        · exact h p hp
      | none =>
        simp only [mergeChildPass, hn, ha]
        apply ih _ _ hs'
        intro p hp
        rcases mem_aset hp with hp | hp
        · rw [hp]
          exact hn
        · exact h p hp

theorem mergeChildPass_snd_keys_nodup :
    ∀ (l u : List Val) (n0 : List (Val × Val)),
      (n0.map Prod.fst).Nodup →
      ((mergeChildPass u n0 l).2.map Prod.fst).Nodup := by
  intro l
  induction l with
  | nil => intro u n0 h; simpa [mergeChildPass] using h
  | cons it rest ih =>
    intro u n0 h
    cases hn : nameOf it with
    | none => simpa [mergeChildPass, hn] using ih _ _ h
    | some nv =>
      cases ha : alookup n0 nv with
      | some prev =>
        simp only [mergeChildPass, hn, ha]
        exact ih _ _ (aset_keys_nodup _ _ _ h)
      | none =>
        simp only [mergeChildPass, hn, ha]
        exact ih _ _ (aset_keys_nodup _ _ _ h)

theorem filterMap_alookup_pairs (n2 : List (Val × Val)) :
    ∀ ks : List Val,
      ks.filterMap (alookup n2) =
        (ks.filterMap (fun nm => (alookup n2 nm).map (fun v => (nm, v)))).map
          Prod.snd := by
  intro ks
  induction ks with
  | nil => simp
  | cons k rest ih =>
    cases h : alookup n2 k <;> simp [List.filterMap_cons, h, ih]

theorem pairs_fst_eq (n2 : List (Val × Val)) :
    ∀ ks : List Val, (∀ nm ∈ ks, (alookup n2 nm).isSome) →
      (ks.filterMap (fun nm => (alookup n2 nm).map (fun v => (nm, v)))).map
        Prod.fst = ks := by
  intro ks
  induction ks with
  | nil => intro _; simp
  | cons k rest ih =>
    intro h
    obtain ⟨v, hv⟩ := Option.isSome_iff_exists.mp (h k (List.mem_cons_self _ _))
    simp [List.filterMap_cons, hv,
      ih (fun nm hnm => h nm (List.mem_cons_of_mem _ hnm))]

theorem mem_pairs (n2 : List (Val × Val)) (ks : List Val) (n v : Val) :
    (n, v) ∈ ks.filterMap (fun nm => (alookup n2 nm).map (fun w => (nm, w))) ↔
      n ∈ ks ∧ alookup n2 n = some v := by
  rw [List.mem_filterMap]
  constructor
  · rintro ⟨nm, hnm, hf⟩
    cases ha : alookup n2 nm with
    | none => rw [ha] at hf; simp at hf
    | some w =>
      rw [ha] at hf
      simp only [Option.map_some', Option.some.injEq, Prod.mk.injEq] at hf
      obtain ⟨h1, h2⟩ := hf
      subst h1
      subst h2
      exact ⟨hnm, ha⟩
  · rintro ⟨hmem, ha⟩
    exact ⟨n, hmem, by simp [ha]⟩

/-- Full characterisation of the named-member-group list merge, with the
member-name map exposed as an explicit association list `pairs`. -/
theorem mergeNamedLists_spec (bl cl : List Val)
    (hub : UniqueNames bl) (huc : UniqueNames cl)
    (hsb : StringNamed bl) (hsc : StringNamed cl) :
    ∃ pairs : List (Val × Val),
      mergeNamedLists bl cl =
        bl.filter (fun it => (nameOf it).isNone) ++
        cl.filter (fun it => (nameOf it).isNone) ++ pairs.map Prod.snd ∧
      (∀ p ∈ pairs, nameOf p.2 = some p.1) ∧
      (pairs.map Prod.fst).Nodup ∧
      List.Pairwise valLEr (pairs.map Prod.fst) ∧
      (∀ n b c, findNamed bl n = some b → findNamed cl n = some c →
        (n, deep_merge b c) ∈ pairs) ∧
      (∀ n b, findNamed bl n = some b → findNamed cl n = none →
        (n, b) ∈ pairs) ∧
      (∀ n c, findNamed bl n = none → findNamed cl n = some c →
        (n, c) ∈ pairs) ∧
      (∀ p ∈ pairs, (findNamed bl p.1).isSome ∨ (findNamed cl p.1).isSome) := by
  have hmain : mergeNamedLists bl cl =
      (mergeChildPass (basePassAux [] [] bl).1 (basePassAux [] [] bl).2 cl).1 ++
      (List.insertionSort valLEr
        ((mergeChildPass (basePassAux [] [] bl).1 (basePassAux [] [] bl).2 cl).2.map
          Prod.fst)).filterMap
        (alookup
          (mergeChildPass (basePassAux [] [] bl).1 (basePassAux [] [] bl).2 cl).2) := by
    simp only [mergeNamedLists]
  set n2 :=
    (mergeChildPass (basePassAux [] [] bl).1 (basePassAux [] [] bl).2 cl).2
    with hn2def
  have hu2 :
      (mergeChildPass (basePassAux [] [] bl).1 (basePassAux [] [] bl).2 cl).1 =
        bl.filter (fun it => (nameOf it).isNone) ++
        cl.filter (fun it => (nameOf it).isNone) := by
    rw [mergeChildPass_fst]
    rw [basePassAux_fst]
    simp
  have halk : ∀ m, alookup n2 m =
      match findNamed cl m with
      | some it =>
        match findNamed bl m with
        | some prev => some (deep_merge prev it)
        | none => some it
      | none => findNamed bl m := by
    intro m
    rw [hn2def, mergeChildPass_snd_alookup cl huc]
    have hb1 : alookup (basePassAux ([] : List Val) [] bl).2 m =
        match findNamed bl m with
        | some it => some it
        | none => none := by
      rw [basePassAux_snd_alookup bl hub]
      cases findNamed bl m <;> simp [alookup]
    rw [hb1]
    cases findNamed cl m <;> cases findNamed bl m <;> simp
  have hinv : ∀ p ∈ n2, nameOf p.2 = some p.1 := by
    rw [hn2def]
    apply mergeChildPass_snd_inv cl _ _ hsc
    apply basePassAux_snd_inv
    simp
  have hnodup : (n2.map Prod.fst).Nodup := by
    rw [hn2def]
    apply mergeChildPass_snd_keys_nodup
    apply basePassAux_snd_keys_nodup
    simp
  set ks := List.insertionSort valLEr (n2.map Prod.fst) with hksdef
  have hksmem : ∀ nm : Val, nm ∈ ks ↔ nm ∈ n2.map Prod.fst := by
    intro nm
    rw [hksdef]
    exact List.mem_insertionSort valLEr
  have hall : ∀ nm ∈ ks, (alookup n2 nm).isSome := by
    intro nm hnm
    exact alookup_isSome_of_mem_keys ((hksmem nm).mp hnm)
  refine ⟨ks.filterMap (fun nm => (alookup n2 nm).map (fun w => (nm, w))),
    ?_, ?_, ?_, ?_, ?_, ?_, ?_, ?_⟩
  · rw [hmain, hu2, ← filterMap_alookup_pairs]
  · intro p hp
    obtain ⟨n, v⟩ := p
    rw [mem_pairs] at hp
    exact hinv (n, v) (alookup_mem hp.2)
  · rw [pairs_fst_eq n2 ks hall]
    exact ((List.perm_insertionSort valLEr _).nodup_iff).mpr hnodup
  · rw [pairs_fst_eq n2 ks hall, hksdef]
    exact List.sorted_insertionSort valLEr _
  · intro n b c hfb hfc2
    rw [mem_pairs]
    have hx := halk n
    rw [hfb, hfc2] at hx
    refine ⟨?_, hx⟩
    rw [hksmem]
    exact List.mem_map_of_mem Prod.fst (alookup_mem hx)
  · intro n b hfb hfc2
    rw [mem_pairs]
    have hx := halk n
    rw [hfb, hfc2] at hx
    refine ⟨?_, hx⟩
    rw [hksmem]
    exact List.mem_map_of_mem Prod.fst (alookup_mem hx)
  · intro n c hfb hfc2
    rw [mem_pairs]
    have hx := halk n
    rw [hfb, hfc2] at hx
    refine ⟨?_, hx⟩
    rw [hksmem]
    exact List.mem_map_of_mem Prod.fst (alookup_mem hx)
  · intro p hp
    obtain ⟨n, v⟩ := p
    rw [mem_pairs] at hp
    have hx := halk n
    rw [hp.2] at hx
    cases hfc2 : findNamed cl n with
    | some it => exact Or.inr (by simp [hfc2])
    | none =>
      rw [hfc2] at hx
      cases hfb : findNamed bl n with
      | some it => exact Or.inl (by simp [hfb])
      | none => rw [hfb] at hx; simp at hx

/-- A successful base-name loop preserves any string-valued key of the
merge accumulator: every interleaved `deep_merge` lets the child side's
scalar values win. -/
theorem resolveBases_merged_str
    (fuel : Nat) (index : List (String × Entry)) (k : String) (s : String) :
    ∀ (bl : List String) (st st' : RunState),
      resolveBases fuel index bl st = some st' →
      getDict st.merged k = some (.str s) →
      getDict st'.merged k = some (.str s) := by
  intro bl
  induction bl with
  | nil =>
    intro st st' hres hg
    simp only [resolveBases, Option.some.injEq] at hres
    rw [← hres]
    exact hg
  | cons b rest ih =>
    intro st st' hres hg
    simp only [resolveBases] at hres
    split at hres
    · exact ih _ _ hres hg
    · split at hres
      · exact absurd hres (by simp)
      · rename_i be hi t bm c' n hbm
        apply ih _ _ hres
        cases hsm : st.merged with
        | dict cd =>
          rw [hsm] at hg
          simp only [getDict] at hg
          exact getDict_deep_merge_child_str bm cd k s hg
        | null => rw [hsm] at hg; simp [getDict] at hg
        | bool x => rw [hsm] at hg; simp [getDict] at hg
        | int x => rw [hsm] at hg; simp [getDict] at hg
        | str x => rw [hsm] at hg; simp [getDict] at hg
        | list l => rw [hsm] at hg; simp [getDict] at hg

/-- A successful base-name loop yields a `some` whenever every resolvable
base in the list can itself be resolved (under any cache). -/
theorem resolveBases_isSome
    (fuel : Nat) (index : List (String × Entry)) :
    ∀ (bl : List String) (st : RunState),
      (∀ b ∈ bl, ∀ e', lookupKey index b = some e' →
        ∀ c, (buildMerged fuel e' index c).isSome) →
      (resolveBases fuel index bl st).isSome := by
  intro bl
  induction bl with
  | nil => intro st _; simp [resolveBases]
  | cons b rest ih =>
    intro st hb
    simp only [resolveBases]
    split
    · exact ih st (fun b' hb' => hb b' (List.mem_cons_of_mem _ hb'))
    · rename_i be hi
      have h1 := hb b (List.mem_cons_self _ _) be hi st.cache
      obtain ⟨t, hres⟩ := Option.isSome_iff_exists.mp h1
      obtain ⟨bm, c', n⟩ := t
      rw [hres]
      exact ih _ (fun b' hb' => hb b' (List.mem_cons_of_mem _ hb'))

/-! ## Claim C2 -/

/-- C2 counterexample: for the one-record set in which record "A" declares
itself as its base, resolution does not terminate at ANY recursion depth —
the cache is populated only after the recursive calls return, so the cycle
never hits it, contrary to the claim that resolution of a cyclic record
set terminates. -/
theorem c2_cycle_diverges :
    resolutionDiverges ⟨"A", .dict [("inherits", .str "A")]⟩
      [("A", ⟨"A", .dict [("inherits", .str "A")]⟩)] := by
  intro fuel
  induction fuel with
  | zero => simp [buildMerged]
  | succ n ih =>
    simp [buildMerged, resolveBases, lookupKey, orEmptyDict, truthy,
      get_base_names, getBaseNamesLoop, baseNamesAt, BASE_KEYS, ih]

/-- C2 (amended): resolution terminates for every record set whose
base-reference relation is acyclic — witnessed by a rank function that
decreases along every resolvable base reference, which exists exactly for
acyclic relations — at any recursion-depth budget exceeding the record's
rank; and a record already in the cache is never re-resolved (no duplicate
work for repeated/diamond ancestors): its resolution is a pure cache hit
performing zero merges.  For a genuinely cyclic record set resolution
diverges instead (see the counterexample). -/
theorem c2_acyclic_resolution_terminates
    (index : List (String × Entry)) (h : String → Nat) :
    ∀ (fuel : Nat) (entry : Entry) (cache : List (String × Val)),
      rankedAcyclicB index h = true →
      entryOkB index h entry = true →
      h entry.name < fuel →
      (buildMerged fuel entry index cache).isSome ∧
      (∀ v, lookupKey cache entry.name = some v →
        buildMerged fuel entry index cache = some (v, cache, 0)) := by
  intro fuel
  induction fuel with
  | zero =>
    intro entry cache _ _ hf
    exact absurd hf (by omega)
  | succ f ihf =>
    intro entry cache hacyc hent hf
    constructor
    · simp only [buildMerged]
      cases hcac : lookupKey cache entry.name with
      | some v => simp
      | none =>
        have hrb : (resolveBases f index (get_base_names (orEmptyDict entry.data))
            ⟨orEmptyDict entry.data, [], cache, 0⟩).isSome := by
          apply resolveBases_isSome
          intro b hbmem e' hlk c
          have hok : baseOkB index h (h entry.name) b = true :=
            (List.all_eq_true.mp hent) b hbmem
          rw [baseOkB, hlk] at hok
          have hlt : h e'.name < h entry.name := of_decide_eq_true hok
          have hmem := lookupKey_mem hlk
          have he' : entryOkB index h e' = true :=
            (List.all_eq_true.mp hacyc) (b, e') hmem
          exact (ihf e' c hacyc he' (by omega)).1
        obtain ⟨st, hst⟩ := Option.isSome_iff_exists.mp hrb
        simp [hst]
    · intro v hv
      simp [buildMerged, hv]

/-- C2 witness: a concrete acyclic two-record set (A inherits B) resolves
successfully under the rank sending B to 0 and everything else to 1. -/
theorem c2_witness :
    rankedAcyclicB
        [("A", ⟨"A", .dict [("inherits", .str "B")]⟩), ("B", ⟨"B", .dict [("x", .int 1)]⟩)]
        (fun s => if s = "A" then 1 else 0) = true ∧
    (buildMerged 2 ⟨"A", .dict [("inherits", .str "B")]⟩
        [("A", ⟨"A", .dict [("inherits", .str "B")]⟩), ("B", ⟨"B", .dict [("x", .int 1)]⟩)]
        []).isSome :=
  ⟨by decide,
   (c2_acyclic_resolution_terminates
      [("A", ⟨"A", .dict [("inherits", .str "B")]⟩), ("B", ⟨"B", .dict [("x", .int 1)]⟩)]
      (fun s => if s = "A" then 1 else 0) 2 ⟨"A", .dict [("inherits", .str "B")]⟩ []
      (by decide) (by decide) (by decide)).1⟩

/-! ## Claim C8 -/

/-- C8: when no base record carries a deprecation-notice field and the
leaf's body declares a non-empty `deprecation_message`, the resolved
merged view's `deprecation_message` equals the leaf's declared value (the
scalar child value wins every interleaved merge, and the post-merge
`_ancestors` / `descendants` bookkeeping leaves the field untouched). -/
theorem c8_leaf_deprecation_wins
    (entry : Entry) (d : List (String × Val)) (m : String)
    (index : List (String × Entry)) (cache : List (String × Val)) (fuel : Nat)
    (res : Val) (c' : List (String × Val)) (n : Nat)
    (hd : entry.data = .dict d)
    (hdep : lookupKey d "deprecation_message" = some (.str m))
    (hne : m ≠ "")
    (hbases : ∀ p ∈ index, containsDict p.2.data "deprecation_message" = false)
    (hcache : lookupKey cache entry.name = none)
    (hrun : buildMerged fuel entry index cache = some (res, c', n)) :
    getDict res "deprecation_message" = some (.str m) := by
  cases fuel with
  | zero => simp [buildMerged] at hrun
  | succ f =>
    have hdne : d ≠ [] := by
      intro h0
      rw [h0] at hdep
      simp [lookupKey] at hdep
    have htr : orEmptyDict entry.data = .dict d := by
      rw [hd]
      simp [orEmptyDict, truthy, hdne]
    simp only [buildMerged, hcache, htr] at hrun
    cases hrb : resolveBases f index (get_base_names (.dict d)) ⟨.dict d, [], cache, 0⟩ with
    | none => rw [hrb] at hrun; simp at hrun
    | some st =>
      rw [hrb] at hrun
      simp only [Option.some.injEq, Prod.mk.injEq] at hrun
      obtain ⟨h1, _, _⟩ := hrun
      have hstm : getDict st.merged "deprecation_message" = some (.str m) :=
        resolveBases_merged_str f index _ m _ _ _ hrb (by simp [getDict, hdep])
      cases hsm : st.merged with
      | dict md =>
        rw [hsm] at hstm
        simp only [getDict] at hstm
        have hm1 : lookupKey (setKey md "_ancestors" (.list (dedupVals st.ancestors)))
            "deprecation_message" = some (.str m) := by
          rw [lookupKey_setKey_ne _ _ _ _ (by decide)]
          exact hstm
        rw [← h1, hsm]
        simp only [setDict]
        split
        · simp only [setDict, getDict]
          rw [lookupKey_setKey_ne _ _ _ _ (by decide)]
          exact hm1
        · split
          · simp only [delDict, getDict]
            rw [lookupKey_delKey_ne _ _ _ (by decide)]
            exact hm1
          · simpa [getDict] using hm1
      | null => rw [hsm] at hstm; simp [getDict] at hstm
      | bool x => rw [hsm] at hstm; simp [getDict] at hstm
      | int x => rw [hsm] at hstm; simp [getDict] at hstm
      | str x => rw [hsm] at hstm; simp [getDict] at hstm
      | list l => rw [hsm] at hstm; simp [getDict] at hstm

/-- C8 witness: a leaf declaring `deprecation_message: "old"` over a base
with no deprecation notice keeps "old" in its merged view. -/
theorem c8_witness :
    getDict (.dict [("z", .int 3), ("_ancestors", .list [.str "B"]),
                    ("extends", .str "B"), ("deprecation_message", .str "old")])
      "deprecation_message" = some (.str "old") :=
  c8_leaf_deprecation_wins
    ⟨"X", .dict [("extends", .str "B"), ("deprecation_message", .str "old")]⟩
    [("extends", .str "B"), ("deprecation_message", .str "old")] "old"
    [("B", ⟨"B", .dict [("z", .int 3)]⟩)] [] 2
    (.dict [("z", .int 3), ("_ancestors", .list [.str "B"]),
            ("extends", .str "B"), ("deprecation_message", .str "old")])
    [("B", .dict [("z", .int 3), ("_ancestors", .list [])]),
     ("X", .dict [("z", .int 3), ("_ancestors", .list [.str "B"]),
                  ("extends", .str "B"), ("deprecation_message", .str "old")])] 1
    rfl rfl (by decide) (by decide) rfl
    (by simp [buildMerged, resolveBases, lookupKey, orEmptyDict, truthy,
      get_base_names, getBaseNamesLoop, baseNamesAt, BASE_KEYS, setDict, setKey,
      containsDict, getDict, dedupVals, dedupLoop, delDict, ancestorsOf,
      deep_merge, mergeBase, mergeVal, childOnly, containsKey, MERGE_LIST_KEYS])

/-! ## Helper lemmas about the navigation walker -/

theorem pushCrumbs_eq (bc : List Val) (d : List (String × Val)) :
    pushCrumbs bc d =
      bc ++ (if (nodeMeta d).isEmpty then [] else [Val.dict (nodeMeta d)]) := by
  unfold pushCrumbs
  split <;> simp_all

theorem mem_iterRefVals :
    ∀ (d : List (String × Val)) (bc : List Val) (r : Ref),
      r ∈ iterRefVals d bc ↔ ∃ k v, (k, v) ∈ d ∧ r ∈ iterRef v bc := by
  intro d
  induction d with
  | nil => intro bc r; simp [iterRefVals]
  | cons kv rest ih =>
    intro bc r
    obtain ⟨k0, v0⟩ := kv
    rw [iterRefVals]
    rw [List.mem_append]
    constructor
    · rintro (hr | hr)
      · refine ⟨k0, v0, by simp, ?_⟩
        by_cases hb : v0.isMapOrSeq
        · rwa [if_pos hb] at hr
        · rw [if_neg hb] at hr
          simp at hr
      · obtain ⟨k, v, hm, hr⟩ := (ih bc r).mp hr
        exact ⟨k, v, List.mem_cons_of_mem _ hm, hr⟩
    · rintro ⟨k, v, hm, hr⟩
      rcases List.mem_cons.mp hm with heq | hm
      · left
        have h12 : k = k0 ∧ v = v0 := by simpa [Prod.ext_iff] using heq
        obtain ⟨rfl, rfl⟩ := h12
        by_cases hb : v.isMapOrSeq
        · rw [if_pos hb]
          exact hr
        · exfalso
          cases v <;> simp_all [iterRef, Val.isMapOrSeq]
      · right
        exact (ih bc r).mpr ⟨k, v, hm, hr⟩

theorem mem_iterRefItems :
    ∀ (l : List Val) (bc : List Val) (r : Ref),
      r ∈ iterRefItems l bc ↔ ∃ v ∈ l, r ∈ iterRef v bc := by
  intro l
  induction l with
  | nil => intro bc r; simp [iterRefItems]
  | cons v0 rest ih =>
    intro bc r
    rw [iterRefItems, List.mem_append]
    constructor
    · rintro (hr | hr)
      · exact ⟨v0, by simp, hr⟩
      · obtain ⟨v, hm, hr⟩ := (ih bc r).mp hr
        exact ⟨v, List.mem_cons_of_mem _ hm, hr⟩
    · rintro ⟨v, hm, hr⟩
      rcases List.mem_cons.mp hm with rfl | hm
      · exact Or.inl hr
      · exact Or.inr ((ih bc r).mpr ⟨v, hm, hr⟩)

/-- The breadcrumb trail carried at any visited node extends the trail the
walk started with: breadcrumb accumulation is append-only. -/
theorem walkTo_crumbs_prefix :
    ∀ {node : Val} {bc : List Val} {tgt : Val} {tbc : List Val},
      WalkTo node bc tgt tbc → ∃ tail, tbc = bc ++ tail := by
  intro node bc tgt tbc hw
  induction hw with
  | self d bc => exact ⟨_, pushCrumbs_eq bc d⟩
  | intoVal d bc k v tgt tbc hm hw ih =>
    obtain ⟨t, ht⟩ := ih
    rw [pushCrumbs_eq] at ht
    exact ⟨_, by rw [ht, List.append_assoc]⟩
  | intoItem l bc v tgt tbc hm hw ih => exact ih

/-- Every yielded reference arises from a walk to a path-carrying dict
node, with exactly the accumulated trail as its breadcrumbs. -/
theorem iterRef_mem_walk :
    ∀ (node : Val) (bc : List Val) (r : Ref), r ∈ iterRef node bc →
      ∃ d p, WalkTo node bc (.dict d) r.breadcrumbs ∧
        lookupKey d "path" = some (.str p) ∧
        r = ⟨normalize_rel_path p, r.breadcrumbs, .dict d⟩ := by
  intro node bc r hr
  cases node with
  | dict d =>
    rw [iterRef, List.mem_append] at hr
    rcases hr with hr | hr
    · -- the node's own reference
      cases hp : lookupKey d "path" with
      | none => rw [hp] at hr; simp at hr
      | some pv =>
        rw [hp] at hr
        cases pv with
        | str p =>
          simp only [List.mem_singleton] at hr
          subst hr
          exact ⟨d, p, WalkTo.self d bc, hp, rfl⟩
        | null => simp at hr
        | bool x => simp at hr
        | int x => simp at hr
        | list x => simp at hr
        | dict x => simp at hr
    · obtain ⟨k, v, hm, hrv⟩ := (mem_iterRefVals d (pushCrumbs bc d) r).mp hr
      obtain ⟨d', p', hw, hp', heq⟩ := iterRef_mem_walk v (pushCrumbs bc d) r hrv
      exact ⟨d', p', WalkTo.intoVal d bc k v _ _ hm hw, hp', heq⟩
  | list l =>
    rw [iterRef] at hr
    obtain ⟨v, hm, hrv⟩ := (mem_iterRefItems l bc r).mp hr
    obtain ⟨d', p', hw, hp', heq⟩ := iterRef_mem_walk v bc r hrv
    exact ⟨d', p', WalkTo.intoItem l bc v _ _ hm hw, hp', heq⟩
  | null => simp [iterRef] at hr
  | bool x => simp [iterRef] at hr
  | int x => simp [iterRef] at hr
  | str x => simp [iterRef] at hr
termination_by node => sizeOf node
decreasing_by
  all_goals simp_wf
  all_goals subst_vars
  all_goals have h1 := List.sizeOf_lt_of_mem hm
  all_goals simp only [Prod.mk.sizeOf_spec] at h1
  all_goals simp only [Val.dict.sizeOf_spec, Val.list.sizeOf_spec]
  all_goals omega

/-- Conversely, every walk to a path-carrying dict node produces a yielded
reference with the accumulated trail. -/
theorem walk_mem_iterRef :
    ∀ {node : Val} {bc : List Val} {tgt : Val} {tbc : List Val},
      WalkTo node bc tgt tbc →
      ∀ (d : List (String × Val)) (p : String), tgt = .dict d →
        lookupKey d "path" = some (.str p) →
        (⟨normalize_rel_path p, tbc, .dict d⟩ : Ref) ∈ iterRef node bc := by
  intro node bc tgt tbc hw
  induction hw with
  | self d0 bc0 =>
    intro d p htgt hp
    obtain rfl : d0 = d := by simpa using htgt
    rw [iterRef, List.mem_append]
    left
    rw [hp]
    simp
  | intoVal d0 bc0 k v tgt tbc hm hw ih =>
    intro d p htgt hp
    rw [iterRef, List.mem_append]
    right
    exact (mem_iterRefVals d0 (pushCrumbs bc0 d0) _).mpr ⟨k, v, hm, ih d p htgt hp⟩
  | intoItem l bc0 v tgt tbc hm hw ih =>
    intro d p htgt hp
    rw [iterRef]
    exact (mem_iterRefItems l bc0 _).mpr ⟨v, hm, ih d p htgt hp⟩

/-! ## Claim C9 -/

/-- C9 counterexample: a node carrying the breadcrumb field `title` with
an empty-string value contributes NO breadcrumb entry — its yielded
reference's trail is empty — so "one entry per node that has at least one
breadcrumb field" is false as stated: the walker tests truthiness, not
field presence. -/
theorem c9_falsy_breadcrumb_field_contributes_no_entry :
    containsKey [("title", Val.str ""), ("path", Val.str "x.yaml")] "title" = true ∧
    iterRef (.dict [("title", .str ""), ("path", .str "x.yaml")]) [] =
      [⟨"x.yaml", [], .dict [("title", .str ""), ("path", .str "x.yaml")]⟩] := by
  refine ⟨rfl, ?_⟩
  simp [iterRef, iterRefVals, iterRefItems, pushCrumbs, nodeMeta, firstTruthy,
    lookupKey, truthy, Val.isMapOrSeq]
  decide

/-- C9 (amended): the walker is depth-first pre-order — a dict node
carrying a string `path` yields its own reference before anything found
inside its values; breadcrumb accumulation is append-only along each walk;
the yielded references are exactly the path-carrying dict nodes reachable
by a walk, each carrying the trail accumulated from the root down to and
including itself with one entry per dict node that has at least one
breadcrumb field with a truthy (non-empty) value; and the specification's
navigation example yields exactly its two references in document order
with trails `[{title: Root}]` and `[{title: Root}, {title: Bar}]`. -/
theorem c9_preorder_breadcrumb_accumulation
    (d : List (String × Val)) (bc : List Val) (p : String)
    (hp : lookupKey d "path" = some (.str p)) :
    (∃ rest, iterRef (.dict d) bc =
      ⟨normalize_rel_path p, pushCrumbs bc d, .dict d⟩ :: rest) ∧
    (∀ (node : Val) (bc0 : List Val) (tgt : Val) (tbc : List Val),
      WalkTo node bc0 tgt tbc → ∃ tail, tbc = bc0 ++ tail) ∧
    (∀ (node : Val) (bc0 : List Val) (r : Ref),
      r ∈ iterRef node bc0 ↔
        ∃ d' p', WalkTo node bc0 (.dict d') r.breadcrumbs ∧
          lookupKey d' "path" = some (.str p') ∧
          r = ⟨normalize_rel_path p', r.breadcrumbs, .dict d'⟩) ∧
    iterRef (.dict [("title", .str "Root"),
      ("children", .list [.dict [("path", .str "classes/Foo.yaml")],
        .dict [("path", .str "classes/Bar.yaml"), ("title", .str "Bar")]])]) [] =
      [⟨"classes/Foo.yaml", [.dict [("title", .str "Root")]],
         .dict [("path", .str "classes/Foo.yaml")]⟩,
       ⟨"classes/Bar.yaml",
         [.dict [("title", .str "Root")], .dict [("title", .str "Bar")]],
         .dict [("path", .str "classes/Bar.yaml"), ("title", .str "Bar")]⟩] := by
  refine ⟨⟨iterRefVals d (pushCrumbs bc d), ?_⟩, ?_, ?_, ?_⟩
  · rw [iterRef, hp]
    simp
  · intro node bc0 tgt tbc hw
    exact walkTo_crumbs_prefix hw
  · intro node bc0 r
    constructor
    · exact iterRef_mem_walk node bc0 r
    · rintro ⟨d', p', hw, hp', heq⟩
      rw [heq]
      exact walk_mem_iterRef hw d' p' rfl hp'
  · simp [iterRef, iterRefVals, iterRefItems, pushCrumbs, nodeMeta,
      firstTruthy, lookupKey, truthy, Val.isMapOrSeq]
    decide

/-- C9 witness: the amended theorem at the concrete single node
`{path: "x.yaml"}`. -/
theorem c9_witness :
    (∃ rest, iterRef (.dict [("path", .str "x.yaml")]) [] =
      ⟨normalize_rel_path "x.yaml",
        pushCrumbs [] [("path", .str "x.yaml")],
        .dict [("path", .str "x.yaml")]⟩ :: rest) ∧
    (∀ (node : Val) (bc0 : List Val) (tgt : Val) (tbc : List Val),
      WalkTo node bc0 tgt tbc → ∃ tail, tbc = bc0 ++ tail) ∧
    (∀ (node : Val) (bc0 : List Val) (r : Ref),
      r ∈ iterRef node bc0 ↔
        ∃ d' p', WalkTo node bc0 (.dict d') r.breadcrumbs ∧
          lookupKey d' "path" = some (.str p') ∧
          r = ⟨normalize_rel_path p', r.breadcrumbs, .dict d'⟩) ∧
    iterRef (.dict [("title", .str "Root"),
      ("children", .list [.dict [("path", .str "classes/Foo.yaml")],
        .dict [("path", .str "classes/Bar.yaml"), ("title", .str "Bar")]])]) [] =
      [⟨"classes/Foo.yaml", [.dict [("title", .str "Root")]],
         .dict [("path", .str "classes/Foo.yaml")]⟩,
       ⟨"classes/Bar.yaml",
         [.dict [("title", .str "Root")], .dict [("title", .str "Bar")]],
         .dict [("path", .str "classes/Bar.yaml"), ("title", .str "Bar")]⟩] :=
  c9_preorder_breadcrumb_accumulation [("path", .str "x.yaml")] [] "x.yaml" rfl

/-! ## Claim C1 -/

/-- C1: at every named-member-group key at which both dict operands hold
lists, `deep_merge` produces the list consisting of the unnamed entries of
base then child kept positionally, followed by the named members as an
association `pairs` in which each member name occurs exactly once (the
keys are nodup and every member carries its key as its `name`), sorted by
name; a member named on both sides is the recursive merge of the base
member then the child member, a member named on only one side appears
unchanged, and no other named member appears.  (Stated for operands whose
member names are unique per side and are strings, as the claim's notion of
"member name" presumes.) -/
theorem c1_named_member_group_merge
    (bd cd : List (String × Val)) (k : String) (bl cl : List Val)
    (hk : k ∈ MERGE_LIST_KEYS)
    (hb : lookupKey bd k = some (.list bl))
    (hc : lookupKey cd k = some (.list cl))
    (hub : UniqueNames bl) (huc : UniqueNames cl)
    (hsb : StringNamed bl) (hsc : StringNamed cl) :
    ∃ pairs : List (Val × Val),
      getDict (deep_merge (.dict bd) (.dict cd)) k =
        some (.list (bl.filter (fun it => (nameOf it).isNone) ++
                     cl.filter (fun it => (nameOf it).isNone) ++
                     pairs.map Prod.snd)) ∧
      (∀ p ∈ pairs, nameOf p.2 = some p.1) ∧
      (pairs.map Prod.fst).Nodup ∧
      List.Pairwise valLEr (pairs.map Prod.fst) ∧
      (∀ n b c, findNamed bl n = some b → findNamed cl n = some c →
        (n, deep_merge b c) ∈ pairs) ∧
      (∀ n b, findNamed bl n = some b → findNamed cl n = none →
        (n, b) ∈ pairs) ∧
      (∀ n c, findNamed bl n = none → findNamed cl n = some c →
        (n, c) ∈ pairs) ∧
      (∀ p ∈ pairs, (findNamed bl p.1).isSome ∨ (findNamed cl p.1).isSome) := by
  obtain ⟨pairs, h1, h2, h3, h4, h5, h6, h7, h8⟩ :=
    mergeNamedLists_spec bl cl hub huc hsb hsc
  refine ⟨pairs, ?_, h2, h3, h4, h5, h6, h7, h8⟩
  rw [getDict_deep_merge_dict, hb, hc]
  simp only [mergeVal, hk, if_pos]
  rw [h1]

/-- C1 witness: the specification's own example — base members
`[{name: "X", desc: "b"}]`, child members
`[{name: "X", desc: "c"}, {name: "Y", desc: "c2"}]`. -/
theorem c1_witness :
    ∃ pairs : List (Val × Val),
      getDict (deep_merge
          (.dict [("members",
            .list [.dict [("name", .str "X"), ("desc", .str "b")]])])
          (.dict [("members",
            .list [.dict [("name", .str "X"), ("desc", .str "c")],
                   .dict [("name", .str "Y"), ("desc", .str "c2")]])]))
          "members" =
        some (.list
          ([Val.dict [("name", .str "X"), ("desc", .str "b")]].filter
              (fun it => (nameOf it).isNone) ++
           [Val.dict [("name", .str "X"), ("desc", .str "c")],
            Val.dict [("name", .str "Y"), ("desc", .str "c2")]].filter
              (fun it => (nameOf it).isNone) ++
           pairs.map Prod.snd)) ∧
      (∀ p ∈ pairs, nameOf p.2 = some p.1) ∧
      (pairs.map Prod.fst).Nodup ∧
      List.Pairwise valLEr (pairs.map Prod.fst) ∧
      (∀ n b c,
        findNamed [Val.dict [("name", .str "X"), ("desc", .str "b")]] n = some b →
        findNamed [Val.dict [("name", .str "X"), ("desc", .str "c")],
                   Val.dict [("name", .str "Y"), ("desc", .str "c2")]] n = some c →
        (n, deep_merge b c) ∈ pairs) ∧
      (∀ n b,
        findNamed [Val.dict [("name", .str "X"), ("desc", .str "b")]] n = some b →
        findNamed [Val.dict [("name", .str "X"), ("desc", .str "c")],
                   Val.dict [("name", .str "Y"), ("desc", .str "c2")]] n = none →
        (n, b) ∈ pairs) ∧
      (∀ n c,
        findNamed [Val.dict [("name", .str "X"), ("desc", .str "b")]] n = none →
        findNamed [Val.dict [("name", .str "X"), ("desc", .str "c")],
                   Val.dict [("name", .str "Y"), ("desc", .str "c2")]] n = some c →
        (n, c) ∈ pairs) ∧
      (∀ p ∈ pairs,
        (findNamed [Val.dict [("name", .str "X"), ("desc", .str "b")]] p.1).isSome ∨
        (findNamed [Val.dict [("name", .str "X"), ("desc", .str "c")],
                    Val.dict [("name", .str "Y"), ("desc", .str "c2")]] p.1).isSome) :=
  c1_named_member_group_merge
    [("members", .list [.dict [("name", .str "X"), ("desc", .str "b")]])]
    [("members", .list [.dict [("name", .str "X"), ("desc", .str "c")],
                        .dict [("name", .str "Y"), ("desc", .str "c2")]])]
    "members"
    [.dict [("name", .str "X"), ("desc", .str "b")]]
    [.dict [("name", .str "X"), ("desc", .str "c")],
     .dict [("name", .str "Y"), ("desc", .str "c2")]]
    (by decide) rfl rfl
    (by unfold UniqueNames; decide) (by unfold UniqueNames; decide)
    (by
      intro it hit n hn
      rcases List.mem_cons.mp hit with rfl | hit
      · refine ⟨"X", ?_⟩
        simp [nameOf, lookupKey] at hn
        exact hn.symm
      · simp at hit)
    (by
      intro it hit n hn
      rcases List.mem_cons.mp hit with rfl | hit
      · refine ⟨"X", ?_⟩
        simp [nameOf, lookupKey] at hn
        exact hn.symm
      · rcases List.mem_cons.mp hit with rfl | hit
        · refine ⟨"Y", ?_⟩
          simp [nameOf, lookupKey] at hn
          exact hn.symm
        · simp at hit)

/-! ## Claim C4 -/

/-- C4 counterexample: on a body declaring both `inherits` and `extends`,
`get_base_names` returns the names of BOTH fields — the claim that only
the first present field of the priority list contributes is false (the
source loop has no break). -/
theorem c4_first_present_field_does_not_win :
    get_base_names (.dict [("inherits", .str "A"), ("extends", .str "B")]) =
      ["A", "B"] ∧
    (["A", "B"] : List String) ≠ ["A"] :=
  ⟨rfl, by simp⟩

/-- C4 (amended): for every record body, `get_base_names` returns the
concatenation, in the fixed order inherits, extends, superclass,
superclasses, bases, of the contribution of EVERY present base-reference
field — a string value contributing that one name and a sequence value its
string elements — rather than only the first present field's. -/
theorem c4_all_present_fields_contribute (d : List (String × Val)) :
    get_base_names (.dict d) = (BASE_KEYS.map (baseNamesAt d)).flatten := by
  simpa [get_base_names] using getBaseNamesLoop_eq_join d BASE_KEYS []

/-! ## Claim C6 -/

/-- C6: within one run, resolving a record a second time (with the cache
returned by the first resolution, at any recursion-depth budget) is a pure
cache hit: it returns a value equal to the first resolution's result,
leaves the cache unchanged, and invokes the merge primitive `deep_merge`
zero times. -/
theorem c6_cache_hit_idempotent
    (fuel fuel' : Nat) (entry : Entry) (index : List (String × Entry))
    (cache : List (String × Val)) (res : Val) (c' : List (String × Val)) (n : Nat)
    (h : buildMerged fuel entry index cache = some (res, c', n)) :
    buildMerged (fuel' + 1) entry index c' = some (res, c', 0) := by
  have hc := buildMerged_cached h
  simp [buildMerged, hc]

/-- C6 witness: a concrete first resolution followed by its cache-hit
re-resolution. -/
theorem c6_witness :
    buildMerged 1 ⟨"A", .dict [("x", .int 1)]⟩ []
      [("A", .dict [("x", .int 1), ("_ancestors", .list [])])] =
      some (.dict [("x", .int 1), ("_ancestors", .list [])],
        [("A", .dict [("x", .int 1), ("_ancestors", .list [])])], 0) :=
  c6_cache_hit_idempotent 1 0 ⟨"A", .dict [("x", .int 1)]⟩ [] []
    (.dict [("x", .int 1), ("_ancestors", .list [])])
    [("A", .dict [("x", .int 1), ("_ancestors", .list [])])] 0
    (by simp [buildMerged, resolveBases, lookupKey, orEmptyDict, truthy,
      get_base_names, getBaseNamesLoop, baseNamesAt, BASE_KEYS, setDict, setKey,
      containsDict, getDict, dedupVals, dedupLoop, delDict])

/-! ## Claim C7 -/

/-- C7: a record whose only declared base name has no entry in the by-name
index resolves successfully — the unknown base is skipped silently, no
merge is performed, nothing is contributed to the ancestor chain, and the
merged view is exactly the leaf's own body plus an empty `_ancestors`
list. -/
theorem c7_missing_base_skipped
    (entry : Entry) (d : List (String × Val)) (g : String)
    (index : List (String × Entry)) (cache : List (String × Val)) (fuel : Nat)
    (hd : entry.data = .dict d)
    (hbase : get_base_names (.dict d) = [g])
    (hmiss : lookupKey index g = none)
    (hcache : lookupKey cache entry.name = none) :
    buildMerged (fuel + 1) entry index cache =
      some (.dict (setKey d "_ancestors" (.list [])),
        setKey cache entry.name (.dict (setKey d "_ancestors" (.list []))), 0) := by
  have hdne : d ≠ [] := by
    intro hnil
    rw [hnil] at hbase
    simp [get_base_names, getBaseNamesLoop, baseNamesAt, BASE_KEYS, lookupKey] at hbase
  have htr : orEmptyDict entry.data = .dict d := by
    rw [hd]
    simp [orEmptyDict, truthy, hdne]
  simp only [buildMerged, hcache, htr, hbase, resolveBases, hmiss]
  cases hdesc : lookupKey d "descendants" with
  | some v =>
    have h1 : lookupKey (setKey d "_ancestors" (Val.list [])) "descendants" = some v := by
      rw [lookupKey_setKey_ne _ _ _ _ (by decide)]
      exact hdesc
    simp [dedupVals, dedupLoop, setDict, containsDict, getDict, hdesc, h1,
      setKey_eq_of_lookup _ _ _ h1]
  | none =>
    have h1 : lookupKey (setKey d "_ancestors" (Val.list [])) "descendants" = none := by
      rw [lookupKey_setKey_ne _ _ _ _ (by decide)]
      exact hdesc
    simp [dedupVals, dedupLoop, setDict, containsDict, getDict, hdesc, h1]

/-- C7 witness: a leaf declaring only the unresolvable base "Ghost". -/
theorem c7_witness :
    buildMerged 1 ⟨"Leaf", .dict [("inherits", .str "Ghost")]⟩ [] [] =
      some (.dict [("inherits", .str "Ghost"), ("_ancestors", .list [])],
        [("Leaf", .dict [("inherits", .str "Ghost"), ("_ancestors", .list [])])], 0) :=
  c7_missing_base_skipped ⟨"Leaf", .dict [("inherits", .str "Ghost")]⟩
    [("inherits", .str "Ghost")] "Ghost" [] [] 0 rfl rfl rfl rfl

/-! ## Claim C3 (code bug: the effective resolver lacks the documented
own-only handling of `inherits`) -/

/-- C3, evaluated at the failing input: the leaf body declares no
`inherits` key (it references its base via `extends`), the base's body
declares `inherits: "Ghost"`, and the resolved merged view of the leaf
DOES contain `inherits: "Ghost"` inherited from the base — the effective
`build_merged_for_entry` (second definition) never deletes a
base-contributed `inherits`, contrary to the claim and to the shadowed
first definition (lines 228-233 of the source). -/
theorem c3_base_inherits_leaks_into_merged_view :
    getDict (Val.dict [("extends", Val.str "B")]) "inherits" = none ∧
    buildMerged 2 ⟨"Leaf", .dict [("extends", .str "B")]⟩
      [("B", ⟨"B", .dict [("inherits", .str "Ghost"), ("x", .int 1)]⟩)] [] =
      some (.dict [("inherits", .str "Ghost"), ("x", .int 1),
                   ("_ancestors", .list [.str "B"]), ("extends", .str "B")],
        [("B", .dict [("inherits", .str "Ghost"), ("x", .int 1),
                      ("_ancestors", .list [])]),
         ("Leaf", .dict [("inherits", .str "Ghost"), ("x", .int 1),
                         ("_ancestors", .list [.str "B"]), ("extends", .str "B")])], 1) ∧
    getDict (.dict [("inherits", .str "Ghost"), ("x", .int 1),
                    ("_ancestors", .list [.str "B"]), ("extends", .str "B")])
        "inherits" = some (.str "Ghost") := by
  refine ⟨rfl, ?_, rfl⟩
  simp [buildMerged, resolveBases, lookupKey, orEmptyDict, truthy,
    get_base_names, getBaseNamesLoop, baseNamesAt, BASE_KEYS, setDict, setKey,
    containsDict, getDict, dedupVals, dedupLoop, delDict, ancestorsOf,
    deep_merge, mergeBase, mergeVal, childOnly, containsKey, MERGE_LIST_KEYS]

/-! ## Claim C5 (code bug: the effective resolver never forces the leaf's
name) -/

/-- C5, evaluated at the failing input: the leaf's body declares no `name`
(its indexed name is "Leaf"), its base record declares `name: "B"`, and
the resolved merged view's `name` is "B" — the ancestor's name, not the
leaf's indexed name — because the effective `build_merged_for_entry`
(second definition) lacks the `merged["name"] = data.get("name",
entry["name"])` step of the shadowed first definition (line 225 of the
source). -/
theorem c5_merged_name_comes_from_ancestor :
    getDict (Val.dict [("extends", Val.str "B")]) "name" = none ∧
    (Entry.mk "Leaf" (.dict [("extends", .str "B")])).name = "Leaf" ∧
    buildMerged 2 ⟨"Leaf", .dict [("extends", .str "B")]⟩
      [("B", ⟨"B", .dict [("name", .str "B")]⟩)] [] =
      some (.dict [("name", .str "B"), ("_ancestors", .list [.str "B"]),
                   ("extends", .str "B")],
        [("B", .dict [("name", .str "B"), ("_ancestors", .list [])]),
         ("Leaf", .dict [("name", .str "B"), ("_ancestors", .list [.str "B"]),
                         ("extends", .str "B")])], 1) ∧
    getDict (.dict [("name", .str "B"), ("_ancestors", .list [.str "B"]),
                    ("extends", .str "B")]) "name" = some (.str "B") := by
  refine ⟨rfl, rfl, ?_, rfl⟩
  simp [buildMerged, resolveBases, lookupKey, orEmptyDict, truthy,
    get_base_names, getBaseNamesLoop, baseNamesAt, BASE_KEYS, setDict, setKey,
    containsDict, getDict, dedupVals, dedupLoop, delDict, ancestorsOf,
    deep_merge, mergeBase, mergeVal, childOnly, containsKey, MERGE_LIST_KEYS]

end DocAggregate
